import Mathlib

/- Verification development for the trade-predictor repository.
   JavaScript strings are modelled as lists of characters (`Str`); JavaScript
   `Set` objects are modelled as lists with decidable membership; fallible
   JavaScript code (thrown exceptions) is modelled with `Except Unit`. -/

set_option linter.unusedVariables false

abbrev Str := List Char

/-- Characters that terminate the host part of a URL in the pattern
`[^/?#]+` of `extractDomain` (src/lib/utils/stock-analysis.ts:84). -/
def isHostEnd (c : Char) : Bool := c == '/' || c == '?' || c == '#'

/-- Case-insensitive literal match of `pat` (given in lower case) against a
prefix of `s`; returns the remainder on success.  Models the `i` flag of the
URL regex in `extractDomain`. -/
def matchCI (pat : Str) (s : Str) : Option Str :=
  match pat, s with
  | [], rest => some rest
  | _ :: _, [] => none
  | p :: ps, c :: cs => if c.toLower = p then matchCI ps cs else none

/-- Model of `extractDomain` (src/lib/utils/stock-analysis.ts:83-86):
`url.match(/^https?:\/\/([^\/?#]+)(?:[\/?#]|$)/i)?.[1] || url`.
The regex anchors at the start, matches `http` then an optional `s` then
`://` case-insensitively, captures one or more characters that are not
`/`, `?` or `#`, and requires the next character (if any) to be one of
those three.  On no match the whole url is returned. -/
def extractDomain (url : Str) : Str :=
  match matchCI (("http").data) url with
  | none => url
  | some rest =>
    let afterScheme : Option Str :=
      match matchCI (("s://").data) rest with
      | some r => some r
      | none => matchCI (("://").data) rest
    match afterScheme with
    | none => url
    | some r =>
      let host := r.takeWhile (fun c => !(isHostEnd c))
      if host.isEmpty then url else host

/-- Worker for `deduplicateByDomainAndUrl`
(src/lib/utils/stock-analysis.ts:96-112): the two accumulator lists model the
`seenUrls` and `seenDomains` sets; an item is kept exactly when both its url
and its extracted domain are new, in which case both sets are extended. -/
def dedupGo {α : Type} (url : α → Str) (seenUrls seenDomains : List Str) :
    List α → List α
  | [] => []
  | item :: rest =>
    let domain := extractDomain (url item)
    if url item ∉ seenUrls ∧ domain ∉ seenDomains then
      item :: dedupGo url (url item :: seenUrls) (domain :: seenDomains) rest
    else
      dedupGo url seenUrls seenDomains rest

/-- Model of `deduplicateByDomainAndUrl` (src/lib/utils/stock-analysis.ts:96-112),
generic over the item type exactly as the TypeScript generic
`<T extends { url: string }>` is, via the `url` projection. -/
def deduplicateByDomainAndUrl {α : Type} (url : α → Str) (items : List α) :
    List α :=
  dedupGo url [] [] items

/-- An item `x` is fresh with respect to the list `prev` of earlier items when
no earlier item shares its url or its extracted domain. -/
def freshFrom {α : Type} (url : α → Str) (prev : List α) (x : α) : Prop :=
  ∀ y ∈ prev, url y ≠ url x ∧ extractDomain (url y) ≠ extractDomain (url x)

instance {α : Type} (url : α → Str) (prev : List α) (x : α) :
    Decidable (freshFrom url prev x) := by
  unfold freshFrom
  infer_instance

/-- Declarative first-seen-wins filter: walking the input in order, keep an
item exactly when no earlier input item (kept or dropped) shares its url or
its extracted domain. -/
def dedupSpecGo {α : Type} (url : α → Str) (prev : List α) : List α → List α
  | [] => []
  | x :: xs =>
    if freshFrom url prev x then x :: dedupSpecGo url (prev ++ [x]) xs
    else dedupSpecGo url (prev ++ [x]) xs

/-- Declarative description of the deduplication: an item of the input is
retained iff no earlier input item shares its exact url or its extracted
domain (first occurrence wins). -/
def dedupFirstSeen {α : Type} (url : α → Str) (items : List α) : List α :=
  dedupSpecGo url [] items

theorem dedupGo_sublist {α : Type} (url : α → Str) :
    ∀ (l : List α) (su sd : List Str), (dedupGo url su sd l).Sublist l := by
  intro l
  induction l with
  | nil => intro su sd; simp [dedupGo]
  | cons x xs ih =>
    intro su sd
    by_cases h : url x ∉ su ∧ extractDomain (url x) ∉ sd
    · simpa [dedupGo, h] using List.Sublist.cons₂ x (ih _ _)
    · simpa [dedupGo, h] using List.Sublist.cons x (ih su sd)

theorem freshFrom_append_left {α : Type} (url : α → Str) {p q : List α} {x : α}
    (h : freshFrom url (p ++ q) x) : freshFrom url p x := by
  intro y hy
  exact h y (List.mem_append.mpr (Or.inl hy))

theorem mem_dedupSpecGo {α : Type} (url : α → Str) :
    ∀ (l : List α) (prev : List α) (x : α),
    x ∈ dedupSpecGo url prev l → freshFrom url prev x := by
  intro l
  induction l with
  | nil => intro prev x hx; simp [dedupSpecGo] at hx
  | cons a as ih =>
    intro prev x hx
    by_cases h : freshFrom url prev a
    · rw [dedupSpecGo, if_pos h] at hx
      rcases List.mem_cons.mp hx with rfl | hx'
      · exact h
      · exact freshFrom_append_left url (ih _ _ hx')
    · rw [dedupSpecGo, if_neg h] at hx
      exact freshFrom_append_left url (ih _ _ hx)

theorem dedupSpecGo_pairwise {α : Type} (url : α → Str) :
    ∀ (l : List α) (prev : List α),
    (dedupSpecGo url prev l).Pairwise
      (fun a b => url a ≠ url b ∧ extractDomain (url a) ≠ extractDomain (url b)) := by
  intro l
  induction l with
  | nil => intro prev; simp [dedupSpecGo]
  | cons a as ih =>
    intro prev
    by_cases h : freshFrom url prev a
    · rw [dedupSpecGo, if_pos h]
      refine List.Pairwise.cons ?_ (ih _)
      intro b hb
      have hfresh := mem_dedupSpecGo url as (prev ++ [a]) b hb
      have := hfresh a (by simp)
      exact this
    · rw [dedupSpecGo, if_neg h]
      exact ih _

theorem dedupGo_eq_spec {α : Type} (url : α → Str) :
    ∀ (l : List α) (su sd : List Str) (prev : List α),
    (∀ y ∈ prev, url y ∈ su ∨ extractDomain (url y) ∈ sd) →
    (∀ u ∈ su, extractDomain u ∈ sd) →
    (∀ u ∈ su, ∃ y ∈ prev, url y = u) →
    (∀ d ∈ sd, ∃ y ∈ prev, extractDomain (url y) = d) →
    dedupGo url su sd l = dedupSpecGo url prev l := by
  intro l
  induction l with
  | nil => intro su sd prev _ _ _ _; simp [dedupGo, dedupSpecGo]
  | cons x xs ih =>
    intro su sd prev inv1 inv2 inv3 inv4
    have hiff : (url x ∉ su ∧ extractDomain (url x) ∉ sd) ↔ freshFrom url prev x := by
      constructor
      · rintro ⟨hu, hd⟩ y hy
        constructor
        · intro hEq
          rcases inv1 y hy with hyu | hyd
          · exact hu (hEq ▸ hyu)
          · exact hd (by rw [← hEq]; exact hyd)
        · intro hEq
          rcases inv1 y hy with hyu | hyd
          · exact hd (hEq ▸ inv2 _ hyu)
          · exact hd (hEq ▸ hyd)
      · intro hfresh
        constructor
        · intro hu
          rcases inv3 _ hu with ⟨y, hy, hEq⟩
          exact (hfresh y hy).1 hEq
        · intro hd
          rcases inv4 _ hd with ⟨y, hy, hEq⟩
          exact (hfresh y hy).2 hEq
    by_cases h : freshFrom url prev x
    · rw [dedupGo, dedupSpecGo, if_pos (hiff.mpr h), if_pos h]
      congr 1
      apply ih
      · intro y hy
        rcases List.mem_append.mp hy with hy' | hy'
        · rcases inv1 y hy' with h1 | h1
          · exact Or.inl (List.mem_cons_of_mem _ h1)
          · exact Or.inr (List.mem_cons_of_mem _ h1)
        · rcases List.mem_singleton.mp hy' with rfl
          exact Or.inl (List.mem_cons_self _ _)
      · intro u hu
        rcases List.mem_cons.mp hu with rfl | hu'
        · exact List.mem_cons_self _ _
        · exact List.mem_cons_of_mem _ (inv2 _ hu')
      · intro u hu
        rcases List.mem_cons.mp hu with rfl | hu'
        · exact ⟨x, by simp, rfl⟩
        · rcases inv3 _ hu' with ⟨y, hy, hEq⟩
          exact ⟨y, List.mem_append.mpr (Or.inl hy), hEq⟩
      · intro d hd
        rcases List.mem_cons.mp hd with rfl | hd'
        · exact ⟨x, by simp, rfl⟩
        · rcases inv4 _ hd' with ⟨y, hy, hEq⟩
          exact ⟨y, List.mem_append.mpr (Or.inl hy), hEq⟩
    · rw [dedupGo, dedupSpecGo, if_neg (fun hc => h (hiff.mp hc)), if_neg h]
      apply ih
      · intro y hy
        rcases List.mem_append.mp hy with hy' | hy'
        · exact inv1 y hy'
        · rcases List.mem_singleton.mp hy' with rfl
          by_contra hcon
          push_neg at hcon
          exact h (hiff.mp ⟨hcon.1, hcon.2⟩)
      · exact inv2
      · intro u hu
        rcases inv3 _ hu with ⟨y, hy, hEq⟩
        exact ⟨y, List.mem_append.mpr (Or.inl hy), hEq⟩
      · intro d hd
        rcases inv4 _ hd with ⟨y, hy, hEq⟩
        exact ⟨y, List.mem_append.mpr (Or.inl hy), hEq⟩

/-- C6: `deduplicateByDomainAndUrl` returns a subsequence of its input in
which no two retained items share a url and no two retained items share an
extracted domain, and it equals the first-seen filter: an input item is
retained exactly when no earlier input item shares its url or its domain, so
whenever two input items conflict the later one is never the one retained. -/
theorem deduplicate_correct {α : Type} (url : α → Str) (items : List α) :
    (deduplicateByDomainAndUrl url items).Sublist items ∧
    (deduplicateByDomainAndUrl url items).Pairwise
      (fun a b => url a ≠ url b ∧ extractDomain (url a) ≠ extractDomain (url b)) ∧
    deduplicateByDomainAndUrl url items = dedupFirstSeen url items := by
  have heq : deduplicateByDomainAndUrl url items = dedupFirstSeen url items := by
    apply dedupGo_eq_spec url items [] [] []
    · intro y hy; simp at hy
    · intro u hu; simp at hu
    · intro u hu; simp at hu
    · intro d hd; simp at hd
  refine ⟨dedupGo_sublist url items [] [], ?_, heq⟩
  rw [heq]
  exact dedupSpecGo_pairwise url items []

/-- The set of characters matched by JavaScript regex `\s` (and removed by
`String.prototype.trim`): ASCII whitespace, NBSP, the Unicode space
separators, line separators and BOM. -/
def jsWhitespace (c : Char) : Bool :=
  c.toNat == 32 || c.toNat == 9 || c.toNat == 10 || c.toNat == 13 ||
  c.toNat == 11 || c.toNat == 12 || c.toNat == 160 || c.toNat == 5760 ||
  (8192 ≤ c.toNat && c.toNat ≤ 8202) || c.toNat == 8232 || c.toNat == 8233 ||
  c.toNat == 8239 || c.toNat == 8287 || c.toNat == 12288 || c.toNat == 65279

/-- The line terminators that JavaScript `.` does NOT match when the `s`
flag is absent: LF, CR, U+2028 and U+2029. -/
def isLineTerm (c : Char) : Bool :=
  c.toNat == 10 || c.toNat == 13 || c.toNat == 8232 || c.toNat == 8233

/-- Suffix of `l` strictly after the first occurrence of `c`, provided that
occurrence comes before any line terminator: the lazy `.*?` of the title
regexes cannot consume a line terminator (no `s` flag), so a match starting
at an opener fails as soon as a terminator is reached. -/
def splitAtFirst (c : Char) : List Char → Option (List Char)
  | [] => none
  | x :: xs =>
    if x = c then some xs
    else if isLineTerm x then none
    else splitAtFirst c xs

theorem splitAtFirst_length {c : Char} :
    ∀ {l r : List Char}, splitAtFirst c l = some r → r.length < l.length := by
  intro l
  induction l with
  | nil => intro r h; simp [splitAtFirst] at h
  | cons x xs ih =>
    intro r h
    by_cases hx : x = c
    · rw [splitAtFirst, if_pos hx] at h
      cases h
      simp
    · rw [splitAtFirst, if_neg hx] at h
      by_cases ht : isLineTerm x = true
      · rw [if_pos ht] at h
        cases h
      · rw [if_neg ht] at h
        exact Nat.lt_trans (ih h) (by simp)

theorem splitAtFirst_suffix {c : Char} :
    ∀ {l r : List Char}, splitAtFirst c l = some r → r <:+ l := by
  intro l
  induction l with
  | nil => intro r h; simp [splitAtFirst] at h
  | cons x xs ih =>
    intro r h
    by_cases hx : x = c
    · rw [splitAtFirst, if_pos hx] at h
      cases h
      exact ⟨[x], rfl⟩
    · rw [splitAtFirst, if_neg hx] at h
      by_cases ht : isLineTerm x = true
      · rw [if_pos ht] at h
        cases h
      · rw [if_neg ht] at h
        exact (ih h).trans ⟨[x], rfl⟩

theorem splitAtFirst_none_of_free {c : Char} :
    ∀ {l : List Char}, (∀ ch ∈ l, isLineTerm ch = false) →
    splitAtFirst c l = none → c ∉ l := by
  intro l
  induction l with
  | nil => intro _ _; simp
  | cons x xs ih =>
    intro hfree h
    by_cases hx : x = c
    · rw [splitAtFirst, if_pos hx] at h; cases h
    · have ht : isLineTerm x = false := hfree x (List.mem_cons_self _ _)
      rw [splitAtFirst, if_neg hx, ht] at h
      simp only [Bool.false_eq_true, if_false] at h
      simp only [List.mem_cons]
      rintro (rfl | hmem)
      · exact hx rfl
      · exact ih (fun ch hch => hfree ch (List.mem_cons_of_mem _ hch)) h hmem

theorem splitAtFirst_mem {c : Char} :
    ∀ {l r : List Char}, splitAtFirst c l = some r → c ∈ l := by
  intro l
  induction l with
  | nil => intro r h; simp [splitAtFirst] at h
  | cons x xs ih =>
    intro r h
    by_cases hx : x = c
    · exact hx ▸ List.mem_cons_self _ _
    · rw [splitAtFirst, if_neg hx] at h
      by_cases ht : isLineTerm x = true
      · rw [if_pos ht] at h
        cases h
      · rw [if_neg ht] at h
        exact List.mem_cons_of_mem _ (ih h)

/-- Model of one global lazy-delimiter replacement
`str.replace(/\[.*?\]/g, '')` (and likewise for parentheses) from
`cleanTitle` (src/lib/utils/stock-analysis.ts:88-94): scanning left to
right, an opener whose nearest closer comes before any line terminator is
removed together with everything up to that closer (`.` without the `s`
flag cannot cross a line terminator); an opener without such a closer, and
every other character, is kept. -/
def removeDelim (o c : Char) (l : List Char) : List Char :=
  match l with
  | [] => []
  | x :: xs =>
    if x = o then
      match h : splitAtFirst c xs with
      | some rest => removeDelim o c rest
      | none => x :: removeDelim o c xs
    else x :: removeDelim o c xs
termination_by l.length
decreasing_by
  · exact Nat.lt_trans (splitAtFirst_length h) (by simp)
  · simp
  · simp

/-- A delimiter pair is present when some opener is followed (not
necessarily adjacently) by some closer: exactly when `[o, c]` is a
subsequence. -/
def HasDelimPair (o c : Char) (l : List Char) : Prop := List.Sublist [o, c] l

theorem hasDelimPair_mono {o c : Char} {l l' : List Char}
    (hsub : l'.Sublist l) (h : HasDelimPair o c l') : HasDelimPair o c l :=
  h.trans hsub

theorem not_hasDelimPair_cons {o c x : Char} {l : List Char}
    (hx : x ≠ o) (h : ¬ HasDelimPair o c l) : ¬ HasDelimPair o c (x :: l) := by
  intro hp
  cases hp with
  | cons _ h' => exact h h'
  | cons₂ _ h' => exact hx rfl

theorem hasDelimPair_of_mem {o c : Char} {l : List Char}
    (h : c ∈ l) : HasDelimPair o c (o :: l) :=
  List.Sublist.cons₂ o (List.singleton_sublist.mpr h)

theorem removeDelim_nil {o c : Char} : removeDelim o c [] = [] := by
  rw [removeDelim]

theorem removeDelim_cons_close {o c : Char} {xs rest : List Char}
    (h : splitAtFirst c xs = some rest) :
    removeDelim o c (o :: xs) = removeDelim o c rest := by
  rw [removeDelim]
  rw [if_pos rfl]
  split
  · next r heq => rw [h] at heq; cases heq; rfl
  · next heq => rw [h] at heq; cases heq

theorem removeDelim_cons_noclose {o c : Char} {xs : List Char}
    (h : splitAtFirst c xs = none) :
    removeDelim o c (o :: xs) = o :: removeDelim o c xs := by
  rw [removeDelim]
  rw [if_pos rfl]
  split
  · next r heq => rw [h] at heq; cases heq
  · next heq => rfl

theorem removeDelim_cons_other {o c x : Char} {xs : List Char} (h : x ≠ o) :
    removeDelim o c (x :: xs) = x :: removeDelim o c xs := by
  rw [removeDelim]
  rw [if_neg h]

theorem removeDelim_sublist (o c : Char) (l : List Char) :
    (removeDelim o c l).Sublist l := by
  induction l using removeDelim.induct o c with
  | case1 => simp [removeDelim_nil]
  | case2 xs rest h ih =>
    rw [removeDelim_cons_close h]
    exact ih.trans (List.Sublist.cons o (splitAtFirst_suffix h).sublist)
  | case3 xs h ih =>
    rw [removeDelim_cons_noclose h]
    exact List.Sublist.cons₂ o ih
  | case4 x xs hx ih =>
    rw [removeDelim_cons_other hx]
    exact List.Sublist.cons₂ x ih

theorem lineTermFree_of_mem_sublist {l l' : List Char}
    (hsub : l'.Sublist l) (h : ∀ ch ∈ l, isLineTerm ch = false) :
    ∀ ch ∈ l', isLineTerm ch = false :=
  fun ch hch => h ch (List.Sublist.mem hch hsub)

theorem removeDelim_not_hasPair_clean (o c : Char) :
    ∀ {l : List Char}, (∀ ch ∈ l, isLineTerm ch = false) →
    ¬ HasDelimPair o c (removeDelim o c l) := by
  intro l
  induction l using removeDelim.induct o c with
  | case1 =>
    intro _
    rw [removeDelim_nil]
    intro hp
    simp [HasDelimPair] at hp
  | case2 xs rest h ih =>
    intro hfree
    rw [removeDelim_cons_close h]
    exact ih (lineTermFree_of_mem_sublist
      (List.Sublist.cons o (splitAtFirst_suffix h).sublist) hfree)
  | case3 xs h ih =>
    intro hfree
    have hfxs : ∀ ch ∈ xs, isLineTerm ch = false :=
      fun ch hch => hfree ch (List.mem_cons_of_mem _ hch)
    rw [removeDelim_cons_noclose h]
    intro hp
    cases hp with
    | cons _ h' => exact ih hfxs h'
    | cons₂ _ h' =>
      have hc : c ∈ removeDelim o c xs := List.singleton_sublist.mp h'
      exact splitAtFirst_none_of_free hfxs h
        (List.Sublist.mem hc (removeDelim_sublist o c xs))
  | case4 x xs hx ih =>
    intro hfree
    rw [removeDelim_cons_other hx]
    exact not_hasDelimPair_cons hx
      (ih (fun ch hch => hfree ch (List.mem_cons_of_mem _ hch)))

theorem removeDelim_eq_self {o c : Char} :
    ∀ {l : List Char}, ¬ HasDelimPair o c l → removeDelim o c l = l := by
  intro l
  induction l using removeDelim.induct o c with
  | case1 => intro _; rw [removeDelim_nil]
  | case2 xs rest h ih =>
    intro hl
    exact absurd (hasDelimPair_of_mem (splitAtFirst_mem h)) hl
  | case3 xs h ih =>
    intro hl
    rw [removeDelim_cons_noclose h,
      ih (fun hp => hl (hasDelimPair_mono (List.Sublist.cons o (List.Sublist.refl xs)) hp))]
  | case4 x xs hx ih =>
    intro hl
    rw [removeDelim_cons_other hx,
      ih (fun hp => hl (hasDelimPair_mono (List.Sublist.cons x (List.Sublist.refl xs)) hp))]

/-- Worker for the whitespace-collapsing replacement: the flag records
whether the previous character belonged to a whitespace run whose single
replacement space has already been emitted. -/
def collapseGo (prevWs : Bool) : List Char → List Char
  | [] => []
  | x :: xs =>
    if jsWhitespace x then
      if prevWs then collapseGo true xs else ' ' :: collapseGo true xs
    else x :: collapseGo false xs

/-- Model of the whitespace-collapsing replacement
`str.replace(/\s+/g, ' ')` in `cleanTitle`
(src/lib/utils/stock-analysis.ts:92): each maximal run of whitespace
characters becomes a single space. -/
def collapseWs (l : List Char) : List Char := collapseGo false l

theorem collapseGo_cons_not_ws {y : Char} {ys : List Char} (b : Bool)
    (h : jsWhitespace y = false) :
    collapseGo b (y :: ys) = y :: collapseGo false ys := by
  simp [collapseGo, h]

theorem mem_collapseGo :
    ∀ {l : List Char} {b : Bool} {y : Char}, y ∈ collapseGo b l → y ∈ l ∨ y = ' ' := by
  intro l
  induction l with
  | nil => intro b y hy; simp [collapseGo] at hy
  | cons x xs ih =>
    intro b y hy
    by_cases hx : jsWhitespace x
    · rcases b with _ | _
      · rw [show collapseGo false (x :: xs) = ' ' :: collapseGo true xs by
          simp [collapseGo, hx]] at hy
        rcases List.mem_cons.mp hy with rfl | hy'
        · exact Or.inr rfl
        · rcases ih hy' with hmem | rfl
          · exact Or.inl (List.mem_cons_of_mem _ hmem)
          · exact Or.inr rfl
      · rw [show collapseGo true (x :: xs) = collapseGo true xs by
          simp [collapseGo, hx]] at hy
        rcases ih hy with hmem | rfl
        · exact Or.inl (List.mem_cons_of_mem _ hmem)
        · exact Or.inr rfl
    · have hx' : jsWhitespace x = false := by simpa using hx
      rw [collapseGo_cons_not_ws b hx'] at hy
      rcases List.mem_cons.mp hy with rfl | hy'
      · exact Or.inl (List.mem_cons_self _ _)
      · rcases ih hy' with hmem | rfl
        · exact Or.inl (List.mem_cons_of_mem _ hmem)
        · exact Or.inr rfl

theorem collapseGo_not_hasPair {o c : Char} (ho : o ≠ ' ') (hc : c ≠ ' ') :
    ∀ {l : List Char} {b : Bool},
    ¬ HasDelimPair o c l → ¬ HasDelimPair o c (collapseGo b l) := by
  intro l
  induction l with
  | nil => intro b _ hp; simp [collapseGo, HasDelimPair] at hp
  | cons x xs ih =>
    intro b hl
    have hxs : ¬ HasDelimPair o c xs :=
      fun hp => hl (hasDelimPair_mono (List.Sublist.cons x (List.Sublist.refl xs)) hp)
    by_cases hx : jsWhitespace x
    · rcases b with _ | _
      · rw [show collapseGo false (x :: xs) = ' ' :: collapseGo true xs by
          simp [collapseGo, hx]]
        exact not_hasDelimPair_cons (fun hEq => ho hEq.symm) (ih hxs)
      · rw [show collapseGo true (x :: xs) = collapseGo true xs by
          simp [collapseGo, hx]]
        exact ih hxs
    · have hx' : jsWhitespace x = false := by simpa using hx
      rw [collapseGo_cons_not_ws b hx']
      by_cases hxo : x = o
      · subst hxo
        intro hp
        cases hp with
        | cons _ h' => exact ih hxs h'
        | cons₂ _ h' =>
          rcases mem_collapseGo (List.singleton_sublist.mp h') with hmem | rfl
          · exact hl (hasDelimPair_of_mem hmem)
          · exact hc rfl
      · exact not_hasDelimPair_cons hxo (ih hxs)

theorem collapseWs_not_hasPair {o c : Char} (ho : o ≠ ' ') (hc : c ≠ ' ')
    {l : List Char} (h : ¬ HasDelimPair o c l) :
    ¬ HasDelimPair o c (collapseWs l) :=
  collapseGo_not_hasPair ho hc h

/-- A string is whitespace-normal when every whitespace character in it is a
plain space that is not followed by another whitespace character.  This is
the shape produced by the collapsing replacement. -/
def wsNormal : List Char → Bool
  | [] => true
  | [x] => !jsWhitespace x || x == ' '
  | x :: y :: rest =>
    (!jsWhitespace x || (x == ' ' && !jsWhitespace y)) && wsNormal (y :: rest)

theorem wsNormal_tail {x : Char} {l : List Char}
    (h : wsNormal (x :: l) = true) : wsNormal l = true := by
  cases l with
  | nil => rfl
  | cons y ys =>
    simp only [wsNormal, Bool.and_eq_true] at h
    exact h.2

theorem wsNormal_cons_not_ws {x : Char} (l : List Char)
    (h : jsWhitespace x = false) : wsNormal (x :: l) = wsNormal l := by
  cases l <;> simp [wsNormal, h]

theorem wsNormal_space_cons {y : Char} (l : List Char)
    (hy : jsWhitespace y = false) :
    wsNormal (' ' :: y :: l) = wsNormal (y :: l) := by
  simp [wsNormal, hy]

theorem wsNormal_append_left :
    ∀ {l₁ l₂ : List Char}, wsNormal (l₁ ++ l₂) = true → wsNormal l₁ = true := by
  intro l₁
  induction l₁ with
  | nil => intro l₂ _; rfl
  | cons x l₁' ih =>
    intro l₂ h
    cases l₁' with
    | nil =>
      cases l₂ with
      | nil => simpa using h
      | cons y ys =>
        simp only [List.cons_append, List.nil_append, wsNormal, Bool.and_eq_true,
          Bool.or_eq_true] at h
        rcases h.1 with h1 | h1
        · simp [wsNormal, h1]
        · have hx : x = ' ' := by simpa using h1.1
          simp [wsNormal, hx]
    | cons z zs =>
      simp only [List.cons_append, wsNormal, Bool.and_eq_true] at h
      have := @ih l₂ (by simpa using h.2)
      simp only [wsNormal, Bool.and_eq_true]
      exact ⟨h.1, this⟩

theorem wsNormal_append_right :
    ∀ {l₁ l₂ : List Char}, wsNormal (l₁ ++ l₂) = true → wsNormal l₂ = true := by
  intro l₁
  induction l₁ with
  | nil => intro l₂ h; simpa using h
  | cons x l₁' ih =>
    intro l₂ h
    exact ih (wsNormal_tail (by simpa using h))

theorem collapseGo_true_shape (l : List Char) :
    collapseGo true l = [] ∨
    ∃ y ys, collapseGo true l = y :: ys ∧ jsWhitespace y = false := by
  induction l with
  | nil => exact Or.inl rfl
  | cons x xs ih =>
    by_cases hx : jsWhitespace x
    · rw [show collapseGo true (x :: xs) = collapseGo true xs by simp [collapseGo, hx]]
      exact ih
    · have hx' : jsWhitespace x = false := by simpa using hx
      exact Or.inr ⟨x, collapseGo false xs, collapseGo_cons_not_ws true hx', hx'⟩

theorem wsNormal_collapseGo : ∀ (l : List Char) (b : Bool),
    wsNormal (collapseGo b l) = true := by
  intro l
  induction l with
  | nil => intro b; rfl
  | cons x xs ih =>
    intro b
    by_cases hx : jsWhitespace x
    · rcases b with _ | _
      · rw [show collapseGo false (x :: xs) = ' ' :: collapseGo true xs by
          simp [collapseGo, hx]]
        rcases collapseGo_true_shape xs with hsh | ⟨y, ys, hsh, hy⟩
        · rw [hsh]; decide
        · rw [hsh, wsNormal_space_cons ys hy, ← hsh]
          exact ih true
      · rw [show collapseGo true (x :: xs) = collapseGo true xs by
          simp [collapseGo, hx]]
        exact ih true
    · have hx' : jsWhitespace x = false := by simpa using hx
      rw [collapseGo_cons_not_ws b hx', wsNormal_cons_not_ws _ hx']
      exact ih false

theorem collapseGo_false_eq_self :
    ∀ {l : List Char}, wsNormal l = true → collapseGo false l = l := by
  intro l
  induction l with
  | nil => intro _; rfl
  | cons x xs ih =>
    intro h
    by_cases hx : jsWhitespace x
    · cases xs with
      | nil =>
        have hx' : x = ' ' := by
          simp only [wsNormal, Bool.or_eq_true, Bool.not_eq_true', beq_iff_eq] at h
          rcases h with h1 | h1
          · rw [hx] at h1; cases h1
          · exact h1
        subst hx'
        simp [collapseGo, collapseGo_cons_not_ws, hx]
      | cons y ys =>
        simp only [wsNormal, Bool.and_eq_true, Bool.or_eq_true, Bool.not_eq_true',
          beq_iff_eq] at h
        rcases h with ⟨h1 | h1, h2⟩
        · rw [hx] at h1; cases h1
        · rcases h1 with ⟨rfl, hy⟩
          have htail : wsNormal (y :: ys) = true := by
            cases ys <;> simpa [wsNormal] using h2
          rw [show collapseGo false (' ' :: y :: ys) = ' ' :: collapseGo true (y :: ys) by
            simp [collapseGo, hx]]
          rw [collapseGo_cons_not_ws true hy, ← collapseGo_cons_not_ws false hy,
            ih htail]
    · have hx' : jsWhitespace x = false := by simpa using hx
      rw [collapseGo_cons_not_ws false hx',
        ih (by rw [← wsNormal_cons_not_ws xs hx']; exact h)]

theorem collapseWs_eq_self {l : List Char} (h : wsNormal l = true) :
    collapseWs l = l :=
  collapseGo_false_eq_self h

theorem wsNormal_collapseWs (l : List Char) : wsNormal (collapseWs l) = true :=
  wsNormal_collapseGo l false

theorem dropWhile_head_false {p : Char → Bool} :
    ∀ {l : List Char} {y : Char} {ys : List Char},
    l.dropWhile p = y :: ys → p y = false := by
  intro l
  induction l with
  | nil => intro y ys h; simp at h
  | cons a as ih =>
    intro y ys h
    by_cases ha : p a = true
    · rw [List.dropWhile_cons, if_pos ha] at h
      exact ih h
    · rw [List.dropWhile_cons, if_neg ha] at h
      cases h
      simpa using ha

theorem dropWhile_eq_self_of_prefix {p : Char → Bool} {y l : List Char}
    (h : y <+: l.dropWhile p) : y.dropWhile p = y := by
  cases y with
  | nil => rfl
  | cons a y' =>
    rcases h with ⟨t, ht⟩
    have hshape : l.dropWhile p = a :: (y' ++ t) := by
      rw [← ht]
      rfl
    have ha := dropWhile_head_false hshape
    rw [List.dropWhile_cons, if_neg (by simp [ha])]

theorem dropWhile_idem (p : Char → Bool) (l : List Char) :
    (l.dropWhile p).dropWhile p = l.dropWhile p :=
  dropWhile_eq_self_of_prefix (List.prefix_refl _)

/-- Model of `String.prototype.trim`: remove leading and trailing JavaScript
whitespace. -/
def trimWs (l : List Char) : List Char :=
  ((l.dropWhile jsWhitespace).reverse.dropWhile jsWhitespace).reverse

theorem trimWs_sublist (l : List Char) : (trimWs l).Sublist l := by
  unfold trimWs
  have h1 : (((l.dropWhile jsWhitespace).reverse.dropWhile jsWhitespace).reverse).Sublist
      ((l.dropWhile jsWhitespace).reverse.reverse) :=
    (List.dropWhile_suffix _).sublist.reverse
  rw [List.reverse_reverse] at h1
  exact h1.trans (List.dropWhile_suffix _).sublist

theorem trimWs_isPrefix (l : List Char) : trimWs l <+: l.dropWhile jsWhitespace := by
  unfold trimWs
  have hs : ((l.dropWhile jsWhitespace).reverse.dropWhile jsWhitespace) <:+
      (l.dropWhile jsWhitespace).reverse := List.dropWhile_suffix _
  exact List.reverse_suffix.mp (by simpa using hs)

theorem wsNormal_trimWs {l : List Char} (h : wsNormal l = true) :
    wsNormal (trimWs l) = true := by
  have hd : wsNormal (l.dropWhile jsWhitespace) = true := by
    rcases @List.dropWhile_suffix _ l jsWhitespace with ⟨t, ht⟩
    rw [← ht] at h
    exact wsNormal_append_right h
  rcases trimWs_isPrefix l with ⟨t, ht⟩
  rw [← ht] at hd
  exact wsNormal_append_left hd

theorem trimWs_trimWs (l : List Char) : trimWs (trimWs l) = trimWs l := by
  have h1 : (trimWs l).dropWhile jsWhitespace = trimWs l :=
    dropWhile_eq_self_of_prefix (trimWs_isPrefix l)
  show (((trimWs l).dropWhile jsWhitespace).reverse.dropWhile jsWhitespace).reverse = trimWs l
  rw [h1]
  have h2 : (trimWs l).reverse =
      (l.dropWhile jsWhitespace).reverse.dropWhile jsWhitespace := by
    unfold trimWs
    rw [List.reverse_reverse]
  rw [h2, dropWhile_idem, ← h2, List.reverse_reverse]

/-- Model of `cleanTitle` (src/lib/utils/stock-analysis.ts:88-94): strip
bracketed segments via `replace(/\[.*?\]/g, '')`, strip parenthesised
segments via `replace(/\(.*?\)/g, '')`, collapse whitespace runs to single
spaces via `replace(/\s+/g, ' ')`, and trim. -/
def cleanTitle (title : Str) : Str :=
  trimWs (collapseWs (removeDelim '(' ')' (removeDelim '[' ']' title)))

theorem isLineTerm_ws {ch : Char} (h : isLineTerm ch = true) :
    jsWhitespace ch = true := by
  simp only [isLineTerm, Bool.or_eq_true, beq_iff_eq] at h
  simp only [jsWhitespace, Bool.or_eq_true, Bool.and_eq_true, beq_iff_eq,
    decide_eq_true_eq]
  omega

/-- Every character that survives `collapseGo` is either a non-whitespace
character of the input or the replacement space. -/
theorem mem_collapseGo_not_ws :
    ∀ {l : List Char} {b : Bool} {y : Char}, y ∈ collapseGo b l →
    jsWhitespace y = false ∨ y = ' ' := by
  intro l
  induction l with
  | nil => intro b y hy; simp [collapseGo] at hy
  | cons x xs ih =>
    intro b y hy
    by_cases hx : jsWhitespace x
    · rcases b with _ | _
      · rw [show collapseGo false (x :: xs) = ' ' :: collapseGo true xs by
          simp [collapseGo, hx]] at hy
        rcases List.mem_cons.mp hy with rfl | hy'
        · exact Or.inr rfl
        · exact ih hy'
      · rw [show collapseGo true (x :: xs) = collapseGo true xs by
          simp [collapseGo, hx]] at hy
        exact ih hy
    · have hx' : jsWhitespace x = false := by simpa using hx
      rw [collapseGo_cons_not_ws b hx'] at hy
      rcases List.mem_cons.mp hy with rfl | hy'
      · exact Or.inl hx'
      · exact ih hy'

/-- The output of `cleanTitle` never contains a line terminator: every line
terminator is whitespace, and the collapsing replacement leaves only plain
spaces and non-whitespace characters. -/
theorem cleanTitle_lineTermFree (s : Str) :
    ∀ ch ∈ cleanTitle s, isLineTerm ch = false := by
  intro ch hch
  unfold cleanTitle at hch
  have hcol : ch ∈ collapseGo false
      (removeDelim '(' ')' (removeDelim '[' ']' s)) :=
    List.Sublist.mem hch (trimWs_sublist _)
  rcases mem_collapseGo_not_ws hcol with hws | rfl
  · by_contra hterm
    simp only [Bool.not_eq_false] at hterm
    rw [isLineTerm_ws hterm] at hws
    cases hws
  · decide

/-- On an input free of line terminators, one pass of `cleanTitle`
normalizes the string so that a second pass is the identity. -/
theorem cleanTitle_idemOfFree {s : Str}
    (hfree : ∀ ch ∈ s, isLineTerm ch = false) :
    cleanTitle (cleanTitle s) = cleanTitle s := by
  have hfb : ∀ ch ∈ removeDelim '[' ']' s, isLineTerm ch = false :=
    lineTermFree_of_mem_sublist (removeDelim_sublist '[' ']' s) hfree
  have hnb : ¬ HasDelimPair '[' ']' (cleanTitle s) := by
    have h1 : ¬ HasDelimPair '[' ']' (removeDelim '[' ']' s) :=
      removeDelim_not_hasPair_clean '[' ']' hfree
    have h2 : ¬ HasDelimPair '[' ']' (removeDelim '(' ')' (removeDelim '[' ']' s)) :=
      fun hp => h1 (hasDelimPair_mono (removeDelim_sublist '(' ')' _) hp)
    have h3 : ¬ HasDelimPair '[' ']'
        (collapseWs (removeDelim '(' ')' (removeDelim '[' ']' s))) :=
      collapseWs_not_hasPair (by decide) (by decide) h2
    exact fun hp => h3 (hasDelimPair_mono (trimWs_sublist _) hp)
  have hnp : ¬ HasDelimPair '(' ')' (cleanTitle s) := by
    have h1 : ¬ HasDelimPair '(' ')' (removeDelim '(' ')' (removeDelim '[' ']' s)) :=
      removeDelim_not_hasPair_clean '(' ')' hfb
    have h2 : ¬ HasDelimPair '(' ')'
        (collapseWs (removeDelim '(' ')' (removeDelim '[' ']' s))) :=
      collapseWs_not_hasPair (by decide) (by decide) h1
    exact fun hp => h2 (hasDelimPair_mono (trimWs_sublist _) hp)
  have hwn : wsNormal (cleanTitle s) = true :=
    wsNormal_trimWs (wsNormal_collapseWs _)
  show trimWs (collapseWs (removeDelim '(' ')' (removeDelim '[' ']' (cleanTitle s)))) =
    cleanTitle s
  rw [removeDelim_eq_self hnb, removeDelim_eq_self hnp, collapseWs_eq_self hwn]
  show trimWs (trimWs (collapseWs (removeDelim '(' ')' (removeDelim '[' ']' s)))) =
    cleanTitle s
  rw [trimWs_trimWs]
  rfl

/-- C7 counterexample: JavaScript `.` without the `s` flag does not match
line terminators, so the bracket regex leaves the segment of `[a\nb]` alone
on the first pass; the whitespace collapse then turns the newline into a
space, and a SECOND application strips the now-matchable bracketed segment:
`cleanTitle` applied twice differs from `cleanTitle` applied once. -/
theorem cleanTitle_not_idempotent_counterexample :
    cleanTitle (("[a\nb]").data) = ("[a b]").data ∧
    cleanTitle (cleanTitle (("[a\nb]").data)) = [] ∧
    cleanTitle (cleanTitle (("[a\nb]").data)) ≠ cleanTitle (("[a\nb]").data) := by
  refine ⟨by with_unfolding_all rfl, by with_unfolding_all rfl, ?_⟩
  with_unfolding_all decide

/-- C7 (amended): `cleanTitle` is idempotent on every input containing no
line terminator (LF, CR, U+2028, U+2029); since the whitespace collapse
replaces every line terminator with a space, the output of one pass is
always line-terminator free, so from the second application on the function
is stable — but a bracketed or parenthesised segment spanning a line
terminator survives the first pass only, so `cleanTitle` itself is not
idempotent (see the counterexample). -/
theorem cleanTitle_idempotent_amended (s : Str) :
    ((∀ ch ∈ s, isLineTerm ch = false) →
      cleanTitle (cleanTitle s) = cleanTitle s) ∧
    cleanTitle (cleanTitle (cleanTitle s)) = cleanTitle (cleanTitle s) :=
  ⟨fun hfree => cleanTitle_idemOfFree hfree,
   cleanTitle_idemOfFree (cleanTitle_lineTermFree s)⟩

/-- Witness for `cleanTitle_idempotent_amended`: a concrete title with
brackets, parentheses and doubled spaces but no line terminator is a fixed
point after one pass. -/
theorem cleanTitle_idempotent_amended_witness :
    cleanTitle (cleanTitle (("[ad] (b)  title").data)) =
      cleanTitle (("[ad] (b)  title").data) :=
  (cleanTitle_idempotent_amended (("[ad] (b)  title").data)).1 (by decide)

/-- Index of the leftmost position at which `pat` occurs as a contiguous
substring of `s`, when there is one. -/
def findFirstIdx (pat : Str) (s : Str) : Option Nat :=
  match s with
  | [] => if pat.isPrefixOf ([] : Str) then some 0 else none
  | _ :: rest =>
    if pat.isPrefixOf s then some 0
    else (findFirstIdx pat rest).map (· + 1)

/-- Index of the rightmost position at which `pat` occurs as a contiguous
substring of `s`, when there is one. -/
def findLastIdx (pat : Str) (s : Str) : Option Nat :=
  match s with
  | [] => if pat.isPrefixOf ([] : Str) then some 0 else none
  | _ :: rest =>
    match findLastIdx pat rest with
    | some j => some (j + 1)
    | none => if pat.isPrefixOf s then some 0 else none

def fenceOpen : Str := ("```json\n").data

def fenceClose : Str := ("\n```").data

/-- Model of capture group 1 of the regex match
`finalResult.match(/```json\n(.*)\n```/s)` in `analyzeStocks`
(src/lib/utils/stock-analysis.ts:449).  With the `s` flag, `.` also matches
newlines; `.*` is greedy; the leftmost match therefore starts at the first
occurrence of the opening fence text and the capture extends to the LAST
occurrence of the closing fence text anywhere after it. -/
def jsonBlockCapture (s : Str) : Option Str :=
  match findFirstIdx fenceOpen s with
  | none => none
  | some i =>
    let rest := s.drop (i + fenceOpen.length)
    match findLastIdx fenceClose rest with
    | none => none
    | some j => some (rest.take j)

/-- JSON values as produced by `JSON.parse`, with one modelling choice:
a number is kept as its source lexeme rather than as an IEEE-754 double
(floating-point value semantics are out of this embedding's scope; no claim
inspects numeric values). -/
inductive Json where
  | null : Json
  | bool (b : Bool) : Json
  | num (lexeme : Str) : Json
  | str (chars : Str) : Json
  | arr (elems : List Json) : Json
  | obj (fields : List (Str × Json)) : Json

def braceL : Char := Char.ofNat 123

def braceR : Char := Char.ofNat 125

/-- Whitespace accepted between JSON tokens by `JSON.parse`. -/
def jsonWs (c : Char) : Bool := c == ' ' || c == '\t' || c == '\n' || c == '\r'

def skipJsonWs (s : Str) : Str := s.dropWhile jsonWs

def hexVal (c : Char) : Option Nat :=
  if '0' ≤ c ∧ c ≤ '9' then some (c.toNat - 48)
  else if 'a' ≤ c ∧ c ≤ 'f' then some (c.toNat - 87)
  else if 'A' ≤ c ∧ c ≤ 'F' then some (c.toNat - 55)
  else none

/-- Body of a JSON string after the opening quote: literal characters and
escape sequences up to the closing quote; returns the decoded characters and
the remainder after the closing quote. -/
def parseStringBody : Nat → Str → Option (Str × Str)
  | 0, _ => none
  | _ + 1, [] => none
  | fuel + 1, c :: rest =>
    if c = '\"' then some ([], rest)
    else if c = '\\' then
      match rest with
      | [] => none
      | e :: rest2 =>
        let dec : Option (Char × Str) :=
          if e = '\"' ∨ e = '\\' ∨ e = '/' then some (e, rest2)
          else if e = 'n' then some ('\n', rest2)
          else if e = 't' then some ('\t', rest2)
          else if e = 'r' then some ('\r', rest2)
          else if e = 'b' then some (Char.ofNat 8, rest2)
          else if e = 'f' then some (Char.ofNat 12, rest2)
          else if e = 'u' then
            match rest2 with
            | h1 :: h2 :: h3 :: h4 :: rest3 =>
              match hexVal h1, hexVal h2, hexVal h3, hexVal h4 with
              | some a, some b, some c2, some d =>
                some (Char.ofNat (((a * 16 + b) * 16 + c2) * 16 + d), rest3)
              | _, _, _, _ => none
            | _ => none
          else none
        match dec with
        | none => none
        | some (ch, rest3) =>
          match parseStringBody fuel rest3 with
          | some (chars, rem) => some (ch :: chars, rem)
          | none => none
    else if c.toNat < 32 then none
    else
      match parseStringBody fuel rest with
      | some (chars, rem) => some (c :: chars, rem)
      | none => none

def stripLit (pat s : Str) : Option Str :=
  if pat.isPrefixOf s then some (s.drop pat.length) else none

/-- Integer part of a JSON number: `0`, or a nonzero digit followed by
digits (strict JSON forbids leading zeros). -/
def parseIntPart : Str → Option (Str × Str)
  | [] => none
  | c :: rest =>
    if c = '0' then some ([c], rest)
    else if c.isDigit then
      some (c :: rest.takeWhile Char.isDigit, rest.dropWhile Char.isDigit)
    else none

/-- Optional fractional part `.digits` of a JSON number. -/
def parseFracPart (s : Str) : Option (Str × Str) :=
  match s with
  | '.' :: rest =>
    let ds := rest.takeWhile Char.isDigit
    if ds.isEmpty then none
    else some ('.' :: ds, rest.dropWhile Char.isDigit)
  | _ => some ([], s)

/-- Optional exponent part `[eE][+-]?digits` of a JSON number. -/
def parseExpPart (s : Str) : Option (Str × Str) :=
  match s with
  | [] => some ([], [])
  | c :: rest =>
    if c = 'e' ∨ c = 'E' then
      match rest with
      | [] => none
      | sgn :: rest2 =>
        if sgn = '+' ∨ sgn = '-' then
          let ds := rest2.takeWhile Char.isDigit
          if ds.isEmpty then none
          else some (c :: sgn :: ds, rest2.dropWhile Char.isDigit)
        else
          let ds := rest.takeWhile Char.isDigit
          if ds.isEmpty then none
          else some (c :: ds, rest.dropWhile Char.isDigit)
    else some ([], s)

/-- A JSON number lexeme `-?int frac? exp?`, returned together with the
remainder. -/
def parseNumber (s : Str) : Option (Str × Str) :=
  let signAndRest : Str × Str :=
    match s with
    | '-' :: rest => (['-'], rest)
    | _ => ([], s)
  match parseIntPart signAndRest.2 with
  | none => none
  | some (ip, s2) =>
    match parseFracPart s2 with
    | none => none
    | some (fp, s3) =>
      match parseExpPart s3 with
      | none => none
      | some (ep, s4) => some (signAndRest.1 ++ ip ++ fp ++ ep, s4)

mutual

/-- Recursive-descent JSON value parser (fuel-indexed; the fuel given by
`jsonParse` exceeds any possible recursion depth, so running out of fuel
only ever coincides with malformed input). -/
def parseJsonValue : Nat → Str → Option (Json × Str)
  | 0, _ => none
  | fuel + 1, s =>
    match skipJsonWs s with
    | [] => none
    | c :: rest =>
      if c = 'n' then (stripLit (("ull").data) rest).map (fun r => (Json.null, r))
      else if c = 't' then
        (stripLit (("rue").data) rest).map (fun r => (Json.bool true, r))
      else if c = 'f' then
        (stripLit (("alse").data) rest).map (fun r => (Json.bool false, r))
      else if c = '\"' then
        match parseStringBody (rest.length + 1) rest with
        | some (chars, rem) => some (Json.str chars, rem)
        | none => none
      else if c = '[' then
        match skipJsonWs rest with
        | ']' :: rem => some (Json.arr [], rem)
        | _ =>
          match parseJsonItems fuel rest with
          | some (elems, rem) => some (Json.arr elems, rem)
          | none => none
      else if c = braceL then
        match skipJsonWs rest with
        | [] => none
        | b :: rem =>
          if b = braceR then some (Json.obj [], rem)
          else
            match parseJsonFields fuel rest with
            | some (fields, rem2) => some (Json.obj fields, rem2)
            | none => none
      else if c = '-' ∨ c.isDigit then
        match parseNumber (c :: rest) with
        | some (lx, rem) => some (Json.num lx, rem)
        | none => none
      else none

/-- Comma-separated array elements after `[`, through the closing `]`. -/
def parseJsonItems : Nat → Str → Option (List Json × Str)
  | 0, _ => none
  | fuel + 1, s =>
    match parseJsonValue fuel s with
    | none => none
    | some (v, rem) =>
      match skipJsonWs rem with
      | ',' :: rem2 =>
        match parseJsonItems fuel rem2 with
        | some (vs, rem3) => some (v :: vs, rem3)
        | none => none
      | ']' :: rem2 => some ([v], rem2)
      | _ => none

/-- Comma-separated `"key": value` members after the opening brace, through
the closing brace. -/
def parseJsonFields : Nat → Str → Option (List (Str × Json) × Str)
  | 0, _ => none
  | fuel + 1, s =>
    match skipJsonWs s with
    | [] => none
    | q :: rest =>
      if q = '\"' then
        match parseStringBody (rest.length + 1) rest with
        | none => none
        | some (key, rem) =>
          match skipJsonWs rem with
          | ':' :: rem2 =>
            match parseJsonValue fuel rem2 with
            | none => none
            | some (v, rem3) =>
              match skipJsonWs rem3 with
              | [] => none
              | ',' :: rem4 =>
                match parseJsonFields fuel rem4 with
                | some (fs, rem5) => some ((key, v) :: fs, rem5)
                | none => none
              | b :: rem4 =>
                if b = braceR then some ([(key, v)], rem4) else none
          | _ => none
      else none

end

/-- Model of `JSON.parse(text)`: parse one JSON value and require that only
whitespace remains; `none` models a thrown `SyntaxError`. -/
def jsonParse (s : Str) : Option Json :=
  match parseJsonValue (2 * s.length + 8) s with
  | some (j, rem) => if skipJsonWs rem = [] then some j else none
  | none => none

/-- The per-symbol JSON-extraction step of `analyzeStocks`
(src/lib/utils/stock-analysis.ts:449-450):
`const jsonMatch = finalResult.match(/```json\n(.*)\n```/s);`
`const jsonResult = jsonMatch ? JSON.parse(jsonMatch[1]) : {};`
A `JSON.parse` exception propagates, modelled as `Except.error ()`. -/
def extractRecord (text : Str) : Except Unit Json :=
  match jsonBlockCapture text with
  | none => Except.ok (Json.obj [])
  | some captured =>
    match jsonParse captured with
    | some j => Except.ok j
    | none => Except.error ()

def tcsBlockBody : Str := braceL :: ("\"STOCK NAME\":\"TCS\"").data ++ [braceR]

/-- A response text containing exactly one fenced block, whose body is the
TCS example object of the spec. -/
def tcsResponseText : Str := ("```json\n").data ++ tcsBlockBody ++ ("\n```").data

def twoBlockFirstBody : Str := braceL :: ("\"A\":\"1\"").data ++ [braceR]

def twoBlockSecondBody : Str := braceL :: ("\"B\":\"2\"").data ++ [braceR]

/-- A response text containing two complete fenced json blocks separated by
the text " and ". -/
def twoBlockText : Str :=
  ("```json\n").data ++ twoBlockFirstBody ++ ("\n``` and ```json\n").data ++
    twoBlockSecondBody ++ ("\n```").data

/-- C2 counterexample: on a text with two fenced json blocks, the first block
alone is valid JSON, yet the extraction step does not yield the first
block's object — the greedy capture spans up to the last closing fence, so
`JSON.parse` raises and extraction yields an error. -/
theorem extractRecord_multiblock_counterexample :
    jsonParse twoBlockFirstBody =
      some (Json.obj [(("A").data, Json.str (("1").data))]) ∧
    extractRecord twoBlockText = Except.error () ∧
    extractRecord twoBlockText ≠
      Except.ok (Json.obj [(("A").data, Json.str (("1").data))]) := by
  refine ⟨rfl, rfl, ?_⟩
  intro h
  rw [show extractRecord twoBlockText = Except.error () from rfl] at h
  exact Except.noConfusion h

/-- C2 (amended): on the single-block TCS example the extraction step yields
the parsed object; on any text in which the fenced-block regex does not
match it yields the empty mapping; but when the text contains more than one
fenced block the greedy capture runs from the first opening fence to the
last closing fence, so the result is not in general the first block's
object (on the concrete two-block text it is a raised parse error). -/
theorem extractRecord_spec :
    extractRecord tcsResponseText =
      Except.ok (Json.obj [(("STOCK NAME").data, Json.str (("TCS").data))]) ∧
    (∀ text : Str, jsonBlockCapture text = none →
      extractRecord text = Except.ok (Json.obj [])) ∧
    extractRecord twoBlockText = Except.error () := by
  refine ⟨rfl, ?_, rfl⟩
  intro text h
  unfold extractRecord
  rw [h]

/-- Witness for `extractRecord_spec`: a concrete fence-free text takes the
no-match branch and yields the empty mapping. -/
theorem extractRecord_spec_witness :
    jsonBlockCapture (("no fenced block here").data) = none ∧
    extractRecord (("no fenced block here").data) = Except.ok (Json.obj []) :=
  ⟨rfl, extractRecord_spec.2.1 (("no fenced block here").data) rfl⟩

/-- Last-wins lookup of a key among object fields: `JSON.parse` keeps the
last of duplicate keys, so property access reads that one. -/
def lookupLastField (fields : List (Str × Json)) (k : Str) : Option Json :=
  match fields with
  | [] => none
  | (k2, v) :: rest =>
    match lookupLastField rest k with
    | some v2 => some v2
    | none => if k2 = k then some v else none

/-- Model of JavaScript property access `value[key]`: `none` is `undefined`;
reading a property of `null` throws a TypeError, modelled as an error. -/
def jsGetField (j : Json) (k : Str) : Except Unit (Option Json) :=
  match j with
  | Json.null => Except.error ()
  | Json.obj fields => Except.ok (lookupLastField fields k)
  | _ => Except.ok none

/-- Whether a JSON number lexeme denotes zero: every mantissa digit is 0
(JavaScript truthiness of the number; exponent digits are irrelevant). -/
def numLexemeIsZero (lex : Str) : Bool :=
  (lex.takeWhile (fun c => !(c == 'e') && !(c == 'E'))).all
    (fun c => !c.isDigit || c == '0')

/-- JavaScript truthiness of a JSON value: `null`, `false`, the empty string
and zero are falsy, everything else (objects and arrays included) truthy. -/
def jsTruthyJson : Json → Bool
  | Json.null => false
  | Json.bool b => b
  | Json.num lx => !(numLexemeIsZero lx)
  | Json.str s => !s.isEmpty
  | Json.arr _ => true
  | Json.obj _ => true

mutual

/-- String coercion of a JSON value in a template literal, as
`String(value)` produces it. -/
def jsDisplay : Json → Str
  | Json.null => ("null").data
  | Json.bool true => ("true").data
  | Json.bool false => ("false").data
  | Json.num lx => lx
  | Json.str s => s
  | Json.arr xs => jsDisplayElems xs
  | Json.obj _ => ("[object Object]").data

/-- Array elements joined by commas, with `null` elements displayed as
empty, as `Array.prototype.toString` does. -/
def jsDisplayElems : List Json → Str
  | [] => []
  | [Json.null] => []
  | [x] => jsDisplay x
  | Json.null :: xs => ',' :: jsDisplayElems xs
  | x :: xs => jsDisplay x ++ ',' :: jsDisplayElems xs

end

/-- The email body's per-field interpolation
`${result['KEY'] || 'N/A'}` (src/lib/utils/stock-analysis.ts:401-409):
a missing or falsy field displays as N/A. -/
def fieldOrNA (r : Json) (k : Str) : Except Unit Str :=
  match jsGetField r k with
  | Except.error e => Except.error e
  | Except.ok none => Except.ok (("N/A").data)
  | Except.ok (some v) =>
    Except.ok (if jsTruthyJson v then jsDisplay v else ("N/A").data)

def natDigits (n : Nat) : Str := (toString n).data

/-- One `Stock Analysis #i` section of the email body
(src/lib/utils/stock-analysis.ts:397-414). -/
def formatResultSection (index : Nat) (result : Json) : Except Unit Str := do
  let name ← fieldOrNA result (("STOCK NAME").data)
  let entry ← fieldOrNA result (("ENTRY PRICE").data)
  let target ← fieldOrNA result (("TARGET PRICE").data)
  let sl ← fieldOrNA result (("STOP LOSS").data)
  let horizon ← fieldOrNA result (("TIME HORIZON").data)
  let conf ← fieldOrNA result (("CONFIDENCE LEVEL").data)
  let setup ← fieldOrNA result (("SETUP TYPE").data)
  let reasoning ← fieldOrNA result (("REASONING").data)
  let news ← fieldOrNA result (("LATEST NEWS").data)
  pure (("\nStock Analysis #").data ++ natDigits (index + 1) ++
    (":\n----------------------------------------\nStock Name: ").data ++ name ++
    ("\nEntry Price: ").data ++ entry ++
    ("\nTarget Price: ").data ++ target ++
    ("\nStop Loss: ").data ++ sl ++
    ("\nTime Horizon: ").data ++ horizon ++
    ("\nConfidence Level: ").data ++ conf ++
    ("\nSetup Type: ").data ++ setup ++
    ("\nReasoning: ").data ++ reasoning ++
    ("\nLatest News: ").data ++ news ++
    ("\n\n========================================\n\n").data)

def buildEmailSections : Nat → List Json → Except Unit Str
  | _, [] => Except.ok []
  | i, r :: rest =>
    match formatResultSection i r with
    | Except.error e => Except.error e
    | Except.ok s =>
      match buildEmailSections (i + 1) rest with
      | Except.error e => Except.error e
      | Except.ok s2 => Except.ok (s ++ s2)

/-- The full plain-text email body (src/lib/utils/stock-analysis.ts:389-420). -/
def buildEmailBody (now : Str) (results : List Json) : Except Unit Str :=
  match buildEmailSections 0 results with
  | Except.error e => Except.error e
  | Except.ok sections =>
    Except.ok
      ((("\nStock Analysis Results\nGenerated on: ").data ++ now ++
        ("\n\n========================================\n\n").data) ++
        sections ++
        ("\n---\nThis analysis was generated automatically by the Trend Predictor system.\nPlease review all recommendations carefully before making any investment decisions.\n").data)

/-- Truthiness of an environment variable in JavaScript: an absent variable
(`undefined`) and the empty string are both falsy. -/
def envTruthy : Option Str → Bool
  | none => false
  | some s => !s.isEmpty

/-- The mail-related environment: `GMAIL_USER`, `GMAIL_APP_PASSWORD` and the
recipient variable (spelled `GAMIL_SEND_TO_USER` in the code). -/
structure MailEnv where
  gmailUser : Option Str
  gmailAppPassword : Option Str
  gamilSendToUser : Option Str

/-- The `mailOptions` handed to `transporter.sendMail`
(src/lib/utils/stock-analysis.ts:422-427). -/
structure MailMessage where
  sender : Option Str
  recipient : Option Str
  subject : Str
  text : Str

inductive EmailOutcome where
  | skipped : EmailOutcome
  | sent (msg : MailMessage) : EmailOutcome

/-- Model of `sendEmail` (src/lib/utils/stock-analysis.ts:369-438): if either
Gmail credential is missing or empty the function logs and returns without
creating a transport (`skipped`); otherwise it builds the message and hands
it to the transport, and any failure — a TypeError while building the body,
or a transport error — is rethrown by the catch block (`Except.error`). -/
def sendEmail (transport : MailMessage → Except Unit Unit) (env : MailEnv)
    (now : Str) (results : List Json) : Except Unit EmailOutcome :=
  if !(envTruthy env.gmailUser) || !(envTruthy env.gmailAppPassword) then
    Except.ok EmailOutcome.skipped
  else
    match buildEmailBody now results with
    | Except.error e => Except.error e
    | Except.ok body =>
      let msg : MailMessage :=
        { sender := env.gmailUser, recipient := env.gamilSendToUser,
          subject := ("Stock Analysis Results - ").data ++ now, text := body }
      match transport msg with
      | Except.error e => Except.error e
      | Except.ok _ => Except.ok (EmailOutcome.sent msg)

/-- Model of JavaScript `Array.prototype.indexOf`: the index of the first
occurrence of the value, or -1 when absent. -/
def jsIndexOf (x : Str) : List Str → Int
  | [] => -1
  | y :: ys =>
    if y = x then 0
    else
      let r := jsIndexOf x ys
      if r = -1 then -1 else r + 1

/-- Observable events of one `analyzeStocks` run, in order: an agent call
for a symbol, the fixed 2000ms inter-symbol pause, and the `sendEmail`
invocation. -/
inductive Ev where
  | agentCall (symbol : Str) : Ev
  | pause : Ev
  | email : Ev
deriving DecidableEq

def isPause : Ev → Bool
  | Ev.pause => true
  | _ => false

def countPauses (evs : List Ev) : Nat := (evs.filter isPause).length

/-- The per-symbol loop of `analyzeStocks`
(src/lib/utils/stock-analysis.ts:444-462): `remaining` is the part of the
input still to process while `stocks` stays the full input list, because the
delay guard is `stocks.indexOf(stock) < stocks.length - 1`.  `agent` models
`processWithAI` under the claim's assumption that each call returns text; a
`JSON.parse` exception propagates immediately, abandoning the loop. -/
def analyzeLoop (agent : Str → Str) (stocks : List Str) :
    List Str → List Ev × Except Unit (List Json)
  | [] => ([], Except.ok [])
  | s :: rest =>
    match extractRecord (agent s) with
    | Except.error e => ([Ev.agentCall s], Except.error e)
    | Except.ok j =>
      (Ev.agentCall s ::
        ((if jsIndexOf s stocks < (stocks.length : Int) - 1 then [Ev.pause] else []) ++
          (analyzeLoop agent stocks rest).1),
        match (analyzeLoop agent stocks rest).2 with
        | Except.ok js => Except.ok (j :: js)
        | Except.error e => Except.error e)

/-- The `{message, results, timestamp}` value `analyzeStocks` returns
(src/lib/utils/stock-analysis.ts:467-471). -/
structure RunResult where
  message : Str
  results : List Json
  timestamp : Str

/-- Model of `analyzeStocks` (src/lib/utils/stock-analysis.ts:441-472): run
the per-symbol loop, then call `sendEmail` with the collected results, then
return the aggregate; `now` stands for `getCurrentISTTime()`.  The first
component is the ordered list of observable events of the run. -/
def analyzeStocks (agent : Str → Str) (transport : MailMessage → Except Unit Unit)
    (env : MailEnv) (now : Str) (stocks : List Str) :
    List Ev × Except Unit RunResult :=
  let loop := analyzeLoop agent stocks stocks
  match loop.2 with
  | Except.error e => (loop.1, Except.error e)
  | Except.ok results =>
    match sendEmail transport env now results with
    | Except.error e => (loop.1 ++ [Ev.email], Except.error e)
    | Except.ok _ =>
      (loop.1 ++ [Ev.email],
        Except.ok { message := ("Stock analysis completed successfully").data,
                    results := results, timestamp := now })

/-- The record the loop computes for one symbol when parsing does not fail:
the parsed object of the captured block, or the empty mapping when the
fenced-block regex did not match. -/
def recordFor (agent : Str → Str) (s : Str) : Json :=
  match jsonBlockCapture (agent s) with
  | none => Json.obj []
  | some captured =>
    match jsonParse captured with
    | some j => j
    | none => Json.obj []

/-- A symbol's agent response parses cleanly: whenever the fenced-block
regex matches, the captured text is valid JSON. -/
def parsesCleanly (agent : Str → Str) (s : Str) : Prop :=
  ∀ captured, jsonBlockCapture (agent s) = some captured →
    (jsonParse captured).isSome

/-- The events one successful loop iteration contributes: the agent call,
then the pause when `stocks.indexOf(stock) < stocks.length - 1`. -/
def blockOf (stocks : List Str) (s : Str) : List Ev :=
  Ev.agentCall s ::
    (if jsIndexOf s stocks < (stocks.length : Int) - 1 then [Ev.pause] else [])

theorem extractRecord_eq_recordFor {agent : Str → Str} {s : Str}
    (h : parsesCleanly agent s) :
    extractRecord (agent s) = Except.ok (recordFor agent s) := by
  unfold extractRecord recordFor
  cases hc : jsonBlockCapture (agent s) with
  | none => rfl
  | some captured =>
    rcases Option.isSome_iff_exists.mp (h captured hc) with ⟨j, hj⟩
    simp [hj]

theorem analyzeLoop_ok (agent : Str → Str) (stocks : List Str) :
    ∀ remaining : List Str, (∀ s ∈ remaining, parsesCleanly agent s) →
    analyzeLoop agent stocks remaining =
      ((remaining.map (blockOf stocks)).flatten,
        Except.ok (remaining.map (recordFor agent))) := by
  intro remaining
  induction remaining with
  | nil => intro _; rfl
  | cons s rest ih =>
    intro h
    have hrec := extractRecord_eq_recordFor (h s (List.mem_cons_self _ _))
    have htail := ih (fun s2 hs2 => h s2 (List.mem_cons_of_mem _ hs2))
    simp only [analyzeLoop, hrec]
    rw [htail]
    simp [blockOf]

/-- C1: for a non-empty symbol list, assuming every per-symbol agent call
returns, every matched fenced block parses, and the notification step
completes (e.g. because mail credentials are absent), `analyzeStocks`
returns a result whose `results` field has exactly one record per input
symbol, in input order, each being the parsed object of that symbol's block
or the empty mapping when no block matched. -/
theorem analyzeStocks_results (agent : Str → Str)
    (transport : MailMessage → Except Unit Unit) (env : MailEnv) (now : Str)
    (stocks : List Str) (hne : stocks ≠ [])
    (hparse : ∀ s ∈ stocks, parsesCleanly agent s)
    (hmail : ∃ out, sendEmail transport env now (stocks.map (recordFor agent)) =
      Except.ok out) :
    ∃ rr : RunResult,
      (analyzeStocks agent transport env now stocks).2 = Except.ok rr ∧
      rr.results = stocks.map (recordFor agent) ∧
      rr.results.length = stocks.length := by
  rcases hmail with ⟨out, hout⟩
  refine ⟨{ message := ("Stock analysis completed successfully").data,
            results := stocks.map (recordFor agent), timestamp := now },
    ?_, rfl, by simp⟩
  simp only [analyzeStocks, analyzeLoop_ok agent stocks stocks hparse, hout]

/-- Witness for `analyzeStocks_results`: one concrete symbol whose agent
response is the single-block TCS text, with mail credentials absent. -/
theorem analyzeStocks_results_witness :
    ∃ rr : RunResult,
      (analyzeStocks (fun _ => tcsResponseText) (fun _ => Except.ok ())
        ⟨none, none, none⟩ [] [("TCS").data]).2 = Except.ok rr ∧
      rr.results = [("TCS").data].map (recordFor (fun _ => tcsResponseText)) ∧
      rr.results.length = [("TCS").data].length :=
  analyzeStocks_results (fun _ => tcsResponseText) (fun _ => Except.ok ())
    ⟨none, none, none⟩ [] [("TCS").data] (by simp)
    (by
      intro s hs captured hc
      rw [show jsonBlockCapture tcsResponseText = some tcsBlockBody from rfl] at hc
      cases hc
      rfl)
    ⟨EmailOutcome.skipped, rfl⟩

theorem blockOf_not_email (stocks : List Str) (s : Str) :
    Ev.email ∉ blockOf stocks s := by
  unfold blockOf
  by_cases h : jsIndexOf s stocks < (stocks.length : Int) - 1 <;> simp [h]

theorem analyzeLoop_abort (agent : Str → Str) (stocks : List Str)
    {s captured : Str} (hcap : jsonBlockCapture (agent s) = some captured)
    (hbad : jsonParse captured = none) :
    ∀ (pre post : List Str), (∀ s2 ∈ pre, parsesCleanly agent s2) →
    analyzeLoop agent stocks (pre ++ s :: post) =
      ((pre.map (blockOf stocks)).flatten ++ [Ev.agentCall s], Except.error ()) := by
  intro pre
  induction pre with
  | nil =>
    intro post _
    have herr : extractRecord (agent s) = Except.error () := by
      unfold extractRecord
      rw [hcap]
      simp [hbad]
    simp [analyzeLoop, herr]
  | cons p ps ih =>
    intro post h
    have hrec := extractRecord_eq_recordFor (h p (List.mem_cons_self _ _))
    have htail := ih post (fun s2 hs2 => h s2 (List.mem_cons_of_mem _ hs2))
    rw [List.cons_append]
    simp only [analyzeLoop, hrec]
    rw [htail]
    simp [blockOf]

/-- C3: when some symbol's response contains a fenced json block whose
captured contents are not valid JSON (and every earlier symbol parsed
cleanly), the run raises: `analyzeStocks` ends in an error, the agent was
invoked only for the earlier symbols and the failing one — none after it —
no email event occurs, and the outcome is the same for every transport, so
no partial results are returned and no send is attempted. -/
theorem analyzeStocks_abort (agent : Str → Str)
    (transport : MailMessage → Except Unit Unit) (env : MailEnv) (now : Str)
    (pre post : List Str) (s captured : Str)
    (hpre : ∀ s2 ∈ pre, parsesCleanly agent s2)
    (hcap : jsonBlockCapture (agent s) = some captured)
    (hbad : jsonParse captured = none) :
    analyzeStocks agent transport env now (pre ++ s :: post) =
      ((pre.map (blockOf (pre ++ s :: post))).flatten ++ [Ev.agentCall s],
        Except.error ()) ∧
    Ev.email ∉ (analyzeStocks agent transport env now (pre ++ s :: post)).1 := by
  have hloop := analyzeLoop_abort agent (pre ++ s :: post) hcap hbad pre post hpre
  have hmain : analyzeStocks agent transport env now (pre ++ s :: post) =
      ((pre.map (blockOf (pre ++ s :: post))).flatten ++ [Ev.agentCall s],
        Except.error ()) := by
    simp only [analyzeStocks, hloop]
  refine ⟨hmain, ?_⟩
  rw [hmain]
  intro hmem
  simp only [List.mem_append] at hmem
  rcases hmem with hj | hj
  · rcases List.mem_flatten.mp hj with ⟨b, hb, hmemb⟩
    rcases List.mem_map.mp hb with ⟨s2, _, rfl⟩
    exact blockOf_not_email _ _ hmemb
  · simp at hj

/-- The agent used by the abort witness: the BAD symbol's response carries a
fenced block that is not valid JSON, every other symbol gets the TCS text. -/
def abortAgent (s : Str) : Str :=
  if s = ("BAD").data then ("```json\nnot json\n```").data else tcsResponseText

/-- Witness for `analyzeStocks_abort`: a three-symbol batch whose second
response carries a malformed fenced block aborts right after the second
agent call and emits no email event. -/
theorem analyzeStocks_abort_witness :
    analyzeStocks abortAgent (fun _ => Except.ok ()) ⟨none, none, none⟩ []
      ([("TCS").data] ++ ("BAD").data :: [("INFY").data]) =
      (([("TCS").data].map
          (blockOf ([("TCS").data] ++ ("BAD").data :: [("INFY").data]))).flatten
        ++ [Ev.agentCall (("BAD").data)], Except.error ()) ∧
    Ev.email ∉ (analyzeStocks abortAgent (fun _ => Except.ok ())
      ⟨none, none, none⟩ []
      ([("TCS").data] ++ ("BAD").data :: [("INFY").data])).1 :=
  analyzeStocks_abort abortAgent (fun _ => Except.ok ()) ⟨none, none, none⟩ []
    [("TCS").data] [("INFY").data] (("BAD").data) (("not json").data)
    (by
      intro s2 hs2 captured hc
      rcases List.mem_singleton.mp hs2 with rfl
      rw [show abortAgent (("TCS").data) = tcsResponseText from rfl] at hc
      rw [show jsonBlockCapture tcsResponseText = some tcsBlockBody from rfl] at hc
      cases hc
      rfl)
    rfl rfl

/-- C4 counterexample: for the 3-symbol input [A, A, A], at every iteration
`stocks.indexOf(stock)` is 0 (the FIRST occurrence), which is smaller than
`stocks.length - 1 = 2`, so the 2000ms pause is taken after every symbol —
including after the last — giving 3 pauses rather than the claimed 2. -/
theorem analyzeStocks_pause_counterexample :
    countPauses (analyzeStocks (fun _ => []) (fun _ => Except.ok ())
      ⟨none, none, none⟩ [] [("A").data, ("A").data, ("A").data]).1 = 3 ∧
    countPauses (analyzeStocks (fun _ => []) (fun _ => Except.ok ())
      ⟨none, none, none⟩ [] [("A").data, ("A").data, ("A").data]).1 ≠ 2 := by
  constructor
  · rfl
  · intro h
    rw [show countPauses (analyzeStocks (fun _ => []) (fun _ => Except.ok ())
      ⟨none, none, none⟩ [] [("A").data, ("A").data, ("A").data]).1 = 3 from rfl] at h
    cases h

theorem jsIndexOf_eq_of_nodup :
    ∀ (done rest : List Str) (s : Str), (done ++ s :: rest).Nodup →
    jsIndexOf s (done ++ s :: rest) = done.length := by
  intro done
  induction done with
  | nil =>
    intro rest s _
    simp [jsIndexOf]
  | cons d ds ih =>
    intro rest s hnd
    have hds : (ds ++ s :: rest).Nodup := by
      rw [List.cons_append] at hnd
      exact hnd.of_cons
    have hne : d ≠ s := by
      intro hEq
      subst hEq
      rw [List.cons_append, List.nodup_cons] at hnd
      exact hnd.1 (by simp)
    rw [List.cons_append]
    simp only [jsIndexOf, if_neg hne, ih rest s hds]
    have hne2 : ¬ ((ds.length : Int) = -1) := by omega
    simp [hne2]

theorem countPauses_append (a b : List Ev) :
    countPauses (a ++ b) = countPauses a + countPauses b := by
  simp [countPauses, List.filter_append]

theorem countPauses_blockOf (stocks : List Str) (s : Str) :
    countPauses (blockOf stocks s) =
      if jsIndexOf s stocks < (stocks.length : Int) - 1 then 1 else 0 := by
  unfold blockOf
  by_cases h : jsIndexOf s stocks < (stocks.length : Int) - 1 <;>
    simp [h, countPauses, isPause]

theorem countPauses_loop_nodup (stocks : List Str) (hnd : stocks.Nodup) :
    ∀ (rest done : List Str), stocks = done ++ rest →
    countPauses ((rest.map (blockOf stocks)).flatten) = rest.length - 1 := by
  intro rest
  induction rest with
  | nil => intro done _; simp [countPauses]
  | cons s rest' ih =>
    intro done hsplit
    have hidx : jsIndexOf s stocks = done.length := by
      rw [hsplit]
      exact jsIndexOf_eq_of_nodup done rest' s (hsplit ▸ hnd)
    have hlen : stocks.length = done.length + 1 + rest'.length := by
      rw [hsplit]
      simp only [List.length_append, List.length_cons]
      omega
    have htail := ih (done ++ [s]) (by rw [hsplit]; simp)
    simp only [List.map_cons, List.flatten_cons, countPauses_append,
      countPauses_blockOf, hidx, htail]
    rcases Nat.eq_zero_or_pos rest'.length with hr0 | hrpos
    · have hre : rest' = [] := List.length_eq_zero.mp hr0
      subst hre
      have hc : ¬ ((done.length : Int) < (stocks.length : Int) - 1) := by omega
      simp [hc]
    · have hc : (done.length : Int) < (stocks.length : Int) - 1 := by omega
      simp only [if_pos hc, List.length_cons]
      omega

/-- C4 (amended): under the all-parse assumption, the run's event trace is
exactly the per-symbol blocks — the agent call followed by a pause iff
`stocks.indexOf(stock) < stocks.length - 1`, i.e. iff the FIRST occurrence
of that symbol's value is not at the last index — followed by the email
step.  For pairwise-distinct symbols this gives exactly length-1 pauses
(2 for 3 symbols) and no pause between the last agent call and the email;
with duplicated symbols a pause is also taken after the last symbol (see
the counterexample). -/
theorem analyzeStocks_pauses (agent : Str → Str)
    (transport : MailMessage → Except Unit Unit) (env : MailEnv) (now : Str)
    (stocks : List Str) (hparse : ∀ s ∈ stocks, parsesCleanly agent s) :
    (analyzeStocks agent transport env now stocks).1 =
      (stocks.map (blockOf stocks)).flatten ++ [Ev.email] ∧
    (stocks.Nodup →
      countPauses (analyzeStocks agent transport env now stocks).1 =
        stocks.length - 1) ∧
    (∀ (pre : List Str) (lastSym : Str), stocks = pre ++ [lastSym] → stocks.Nodup →
      ∃ evs, (analyzeStocks agent transport env now stocks).1 =
        evs ++ [Ev.agentCall lastSym, Ev.email]) := by
  have hloop := analyzeLoop_ok agent stocks stocks hparse
  have htrace : (analyzeStocks agent transport env now stocks).1 =
      (stocks.map (blockOf stocks)).flatten ++ [Ev.email] := by
    unfold analyzeStocks
    rw [hloop]
    cases hse : sendEmail transport env now (stocks.map (recordFor agent)) <;>
      simp [hse]
  refine ⟨htrace, ?_, ?_⟩
  · intro hnd
    rw [htrace, countPauses_append, countPauses_loop_nodup stocks hnd stocks [] rfl]
    simp [countPauses, isPause]
  · intro pre lastSym hsplit hnd
    subst hsplit
    have hidx : jsIndexOf lastSym (pre ++ [lastSym]) = pre.length :=
      jsIndexOf_eq_of_nodup pre [] lastSym hnd
    have hlen1 : (pre ++ [lastSym]).length = pre.length + 1 := by simp
    have hcond : ¬ (jsIndexOf lastSym (pre ++ [lastSym]) <
        ((pre ++ [lastSym]).length : Int) - 1) := by
      rw [hidx]
      omega
    refine ⟨(pre.map (blockOf (pre ++ [lastSym]))).flatten, ?_⟩
    rw [htrace, List.map_append, List.flatten_append]
    simp [blockOf, hcond]
    omega

/-- Witness for `analyzeStocks_pauses`: three pairwise-distinct symbols give
exactly 2 inter-symbol pauses. -/
theorem analyzeStocks_pauses_witness :
    countPauses (analyzeStocks (fun _ => []) (fun _ => Except.ok ())
      ⟨none, none, none⟩ [] [("A").data, ("B").data, ("C").data]).1 =
      [("A").data, ("B").data, ("C").data].length - 1 :=
  (analyzeStocks_pauses (fun _ => []) (fun _ => Except.ok ()) ⟨none, none, none⟩
    [] [("A").data, ("B").data, ("C").data]
    (by
      intro s hs captured hc
      rw [show jsonBlockCapture ([] : Str) = none from rfl] at hc
      cases hc)).2.1
    (by decide)

/-- C9: if either Gmail credential is absent from the environment,
`sendEmail` returns normally with the skipped outcome — for every transport,
so none is consulted and nothing is sent — and consequently any run whose
per-symbol loop succeeds still completes successfully. -/
theorem sendEmail_skips_without_creds
    (transport : MailMessage → Except Unit Unit) (env : MailEnv) (now : Str)
    (results : List Json)
    (h : env.gmailUser = none ∨ env.gmailAppPassword = none) :
    sendEmail transport env now results = Except.ok EmailOutcome.skipped ∧
    (∀ (agent : Str → Str) (stocks : List Str),
      (∀ s ∈ stocks, parsesCleanly agent s) →
      (analyzeStocks agent transport env now stocks).2 =
        Except.ok { message := ("Stock analysis completed successfully").data,
                    results := stocks.map (recordFor agent), timestamp := now }) := by
  have hskip : ∀ rs : List Json,
      sendEmail transport env now rs = Except.ok EmailOutcome.skipped := by
    intro rs
    rcases h with h1 | h1 <;> simp [sendEmail, h1, envTruthy]
  refine ⟨hskip results, ?_⟩
  intro agent stocks hparse
  simp only [analyzeStocks, analyzeLoop_ok agent stocks stocks hparse, hskip]

/-- Witness for `sendEmail_skips_without_creds`: with the user credential
absent, even a transport that always fails is never consulted: the send is
skipped and a one-symbol run completes. -/
theorem sendEmail_skips_without_creds_witness :
    sendEmail (fun _ => Except.error ()) ⟨none, some (("pw").data), none⟩ []
      [Json.obj []] = Except.ok EmailOutcome.skipped ∧
    (analyzeStocks (fun _ => []) (fun _ => Except.error ())
      ⟨none, some (("pw").data), none⟩ [] [("TCS").data]).2 =
      Except.ok { message := ("Stock analysis completed successfully").data,
                  results := [("TCS").data].map (recordFor (fun _ => [])),
                  timestamp := [] } := by
  have hmain := sendEmail_skips_without_creds (fun _ => Except.error ())
    ⟨none, some (("pw").data), none⟩ [] [Json.obj []] (Or.inl rfl)
  refine ⟨hmain.1, ?_⟩
  exact hmain.2 (fun _ => []) [("TCS").data]
    (by
      intro s hs captured hc
      rw [show jsonBlockCapture ([] : Str) = none from rfl] at hc
      cases hc)

/-- The topic tags the tool's zod schema admits, plus the `'general'`
fallback used when the arrays are empty. -/
inductive Topic where
  | news : Topic
  | finance : Topic
  | general : Topic
deriving DecidableEq

/-- A raw Exa search hit as the mapping callback reads it
(src/lib/utils/stock-analysis.ts:175-183). -/
structure RawResult where
  url : Str
  title : Option Str
  text : Option Str
  publishedDate : Option Str
  author : Option Str

/-- The normalized search result shape `{url, title, content,
published_date?, author?}`. -/
structure SearchItem where
  url : Str
  title : Str
  content : Str
  published_date : Option Str
  author : Option Str

/-- Per-hit normalization (src/lib/utils/stock-analysis.ts:175-183): cleaned
title, content truncated to 1000 characters, published date kept only for
news topics and only when truthy, author kept only when truthy. -/
def normalizeResult (topic : Topic) (r : RawResult) : SearchItem :=
  { url := r.url
    title := cleanTitle (r.title.getD [])
    content := (r.text.getD []).take 1000
    published_date :=
      if topic = Topic.news ∧ envTruthy r.publishedDate then r.publishedDate
      else none
    author := if envTruthy r.author then r.author else none }

/-- `topics[index] || topics[0] || 'general'`
(src/lib/utils/stock-analysis.ts:151). -/
def topicAt (topics : List Topic) (i : Nat) : Topic :=
  match topics.get? i with
  | some t => t
  | none =>
    match topics.get? 0 with
    | some t => t
    | none => Topic.general

/-- `maxResults[index] || maxResults[0] || 10`
(src/lib/utils/stock-analysis.ts:152): 0 is falsy in JavaScript. -/
def maxResultsAt (maxResults : List Nat) (i : Nat) : Nat :=
  match maxResults.get? i with
  | some n =>
    if n ≠ 0 then n
    else
      match maxResults.get? 0 with
      | some m => if m ≠ 0 then m else 10
      | none => 10
  | none =>
    match maxResults.get? 0 with
    | some m => if m ≠ 0 then m else 10
    | none => 10

/-- The `searchOptions` handed to `exa.searchAndContents`
(src/lib/utils/stock-analysis.ts:157-171): at least 10 results, a
topic-derived category, and include-domains winning over exclude-domains
when both are supplied. -/
structure SearchOptions where
  numResults : Nat
  category : Str
  includeDomains : Option (List Str)
  excludeDomains : Option (List Str)

def optionsFor (topic : Topic) (mr : Nat)
    (include_domains exclude_domains : List Str) : SearchOptions :=
  { numResults := if mr < 10 then 10 else mr
    category :=
      match topic with
      | Topic.finance => ("financial report").data
      | Topic.news => ("news").data
      | Topic.general => []
    includeDomains :=
      if include_domains ≠ [] then some (include_domains.map extractDomain)
      else none
    excludeDomains :=
      if include_domains ≠ [] then none
      else if exclude_domains ≠ [] then some (exclude_domains.map extractDomain)
      else none }

/-- One `{query, results}` element of the returned `searches` array. -/
structure SearchEntry where
  query : Str
  results : List SearchItem

/-- Model of the `execute` body of the `exaWebSearch` tool
(src/lib/utils/stock-analysis.ts:135-208): one search call per query
(`exaCall` models the Exa client; a thrown error yields that query's empty
result set without affecting the others), each query's raw hits are
normalized and then deduplicated PER QUERY with
`deduplicateByDomainAndUrl`. -/
def exaWebSearch (exaCall : Str → SearchOptions → Except Unit (List RawResult))
    (queries : List Str) (maxResults : List Nat) (topics : List Topic)
    (include_domains exclude_domains : List Str) : List SearchEntry :=
  queries.enum.map (fun p =>
    match exaCall p.2
        (optionsFor (topicAt topics p.1) (maxResultsAt maxResults p.1)
          include_domains exclude_domains) with
    | Except.error _ => { query := p.2, results := [] }
    | Except.ok raws =>
      { query := p.2
        results := deduplicateByDomainAndUrl SearchItem.url
          (raws.map (normalizeResult (topicAt topics p.1))) })

/-- Batch-wide distinctness: no two items anywhere in the returned batch —
across entries included — share a url or an extracted domain. -/
def itemsDistinct : List SearchItem → Bool
  | [] => true
  | x :: xs =>
    xs.all (fun y =>
      !(x.url == y.url) && !(extractDomain x.url == extractDomain y.url)) &&
      itemsDistinct xs

def batchItems (batch : List SearchEntry) : List SearchItem :=
  (batch.map SearchEntry.results).flatten

def dupRaw : RawResult :=
  { url := ("http://example.com/x").data, title := none, text := none,
    publishedDate := none, author := none }

/-- C5 counterexample: an invocation with two queries whose searches return
the same single hit retains that item under BOTH queries — deduplication is
applied per query, not across the whole multi-query call — so two retained
items of the same batch share the same url and domain. -/
theorem exaWebSearch_crossquery_counterexample :
    itemsDistinct (batchItems (exaWebSearch (fun _ _ => Except.ok [dupRaw])
      [("q1").data, ("q2").data] [5, 5] [Topic.news, Topic.news] [] [])) =
      false := rfl

/-- C5 (amended): deduplication is scoped to one query's result list within
the invocation: every returned entry's retained results are pairwise
distinct in url and in extracted domain, but items retained under different
queries of the same call may coincide (see the counterexample). -/
theorem exaWebSearch_per_query_dedup
    (exaCall : Str → SearchOptions → Except Unit (List RawResult))
    (queries : List Str) (maxResults : List Nat) (topics : List Topic)
    (include_domains exclude_domains : List Str) :
    ∀ entry ∈ exaWebSearch exaCall queries maxResults topics include_domains
      exclude_domains,
      entry.results.Pairwise
        (fun a b => a.url ≠ b.url ∧ extractDomain a.url ≠ extractDomain b.url) := by
  intro entry hentry
  rcases List.mem_map.mp hentry with ⟨p, hp, rfl⟩
  cases hcall : exaCall p.2
      (optionsFor (topicAt topics p.1) (maxResultsAt maxResults p.1)
        include_domains exclude_domains) with
  | error e => simp [hcall]
  | ok raws =>
    simp only [hcall]
    exact (deduplicate_correct SearchItem.url
      (raws.map (normalizeResult (topicAt topics p.1)))).2.1

/-- Witness for `exaWebSearch_per_query_dedup`: the first entry of the
counterexample call has pairwise-distinct results (its single item). -/
theorem exaWebSearch_per_query_dedup_witness :
    (SearchEntry.mk (("q1").data)
      [normalizeResult Topic.news dupRaw]).results.Pairwise
        (fun a b => a.url ≠ b.url ∧ extractDomain a.url ≠ extractDomain b.url) := by
  have h := exaWebSearch_per_query_dedup (fun _ _ => Except.ok [dupRaw])
    [("q1").data, ("q2").data] [5, 5] [Topic.news, Topic.news] [] []
    (SearchEntry.mk (("q1").data) [normalizeResult Topic.news dupRaw])
    (by
      rw [show exaWebSearch (fun _ _ => Except.ok [dupRaw])
        [("q1").data, ("q2").data] [5, 5] [Topic.news, Topic.news] [] [] =
        [SearchEntry.mk (("q1").data) [normalizeResult Topic.news dupRaw],
         SearchEntry.mk (("q2").data) [normalizeResult Topic.news dupRaw]]
        from rfl]
      exact List.mem_cons_self _ _)
  exact h

structure ApiResponse where
  status : Nat
deriving DecidableEq

def jsTruthyOpt : Option Json → Bool
  | none => false
  | some j => jsTruthyJson j

def isJsArray : Option Json → Bool
  | some (Json.arr _) => true
  | _ => false

def jsArrayElems : Option Json → List Json
  | some (Json.arr elems) => elems
  | _ => []

/-- Model of the `POST /analyze` route handler (src/unnamed/part_000): the
AI gateway key is checked first (500 when absent or empty); then
`request.json()` is awaited — a body that fails JSON parsing THROWS, landing
in the outer catch (500); `const { stocks } = body` throws on a null body
(500, same catch); `!stocks || !Array.isArray(stocks)` answers 400;
otherwise `analyzeStocks(stocks)` runs — `runner` stands for it, taking the
raw array elements unvalidated exactly as the code passes them — with 200 on
success and 500 via the catch on error. -/
def postAnalyze (aiGatewayKey : Option Str) (bodyJson : Except Unit Json)
    (runner : List Json → Except Unit RunResult) : ApiResponse :=
  if !(envTruthy aiGatewayKey) then { status := 500 }
  else
    match bodyJson with
    | Except.error _ => { status := 500 }
    | Except.ok body =>
      match jsGetField body (("stocks").data) with
      | Except.error _ => { status := 500 }
      | Except.ok stocksVal =>
        if !(jsTruthyOpt stocksVal) || !(isJsArray stocksVal) then
          { status := 400 }
        else
          match runner (jsArrayElems stocksVal) with
          | Except.ok _ => { status := 200 }
          | Except.error _ => { status := 500 }

/-- C8 counterexample: with the gateway key present, a request body that is
not valid JSON makes `request.json()` throw, which the outer catch turns
into a 500 — not the claimed 400. -/
theorem postAnalyze_invalid_body_counterexample :
    (postAnalyze (some (("key").data)) (Except.error ())
      (fun _ => Except.error ())).status = 500 ∧
    (postAnalyze (some (("key").data)) (Except.error ())
      (fun _ => Except.error ())).status ≠ 400 := by
  exact ⟨rfl, by decide⟩

/-- C8 (amended): a 400 is returned exactly for requests whose body parses
as JSON and whose `stocks` field is absent, falsy or not an array (the
gateway-key check running first); a body that fails JSON parsing yields 500
through the catch-all, as do a missing/empty AI_GATEWAY_API_KEY, a null
body, and an `analyzeStocks` failure; a truthy array `stocks` yields 200 or
500 according to the run. -/
theorem postAnalyze_spec (runner : List Json → Except Unit RunResult) :
    (∀ (key : Option Str) (body : Json) (v : Option Json),
      envTruthy key = true →
      jsGetField body (("stocks").data) = Except.ok v →
      (!(jsTruthyOpt v) || !(isJsArray v)) = true →
      postAnalyze key (Except.ok body) runner = { status := 400 }) ∧
    (∀ key : Option Str, envTruthy key = true →
      postAnalyze key (Except.error ()) runner = { status := 500 }) ∧
    (∀ key : Option Str, envTruthy key = false →
      ∀ bodyJson, postAnalyze key bodyJson runner = { status := 500 }) ∧
    (∀ (key : Option Str) (body : Json) (v : Option Json),
      envTruthy key = true →
      jsGetField body (("stocks").data) = Except.ok v →
      (jsTruthyOpt v && isJsArray v) = true →
      postAnalyze key (Except.ok body) runner =
        (match runner (jsArrayElems v) with
         | Except.ok _ => ({ status := 200 } : ApiResponse)
         | Except.error _ => { status := 500 })) := by
  refine ⟨?_, ?_, ?_, ?_⟩
  · intro key body v hkey hget hcond
    simp [postAnalyze, hkey, hget, hcond]
  · intro key hkey
    simp [postAnalyze, hkey]
  · intro key hkey bodyJson
    simp [postAnalyze, hkey]
  · intro key body v hkey hget hcond
    simp only [Bool.and_eq_true] at hcond
    simp [postAnalyze, hkey, hget, hcond.1, hcond.2]

/-- Witness for `postAnalyze_spec`: a parsed JSON body with no `stocks`
field answers 400. -/
theorem postAnalyze_spec_witness :
    postAnalyze (some (("key").data)) (Except.ok (Json.obj []))
      (fun _ => Except.error ()) = { status := 400 } :=
  (postAnalyze_spec (fun _ => Except.error ())).1 (some (("key").data))
    (Json.obj []) none rfl rfl rfl

/-- The fixed default symbol list of the cron route
(src/app/api/cron/stock-analysis/route.ts:18). -/
def defaultStocks : List Str :=
  [("ITBEES").data, ("RELIANCE").data, ("TCS").data, ("HDFC").data,
    ("INFY").data]

/-- The string the header is compared against:
`Bearer ${process.env.CRON_SECRET}` — template interpolation renders an
absent variable as the text "undefined". -/
def cronExpectedHeader (cronSecret : Option Str) : Str :=
  ("Bearer ").data ++
    (match cronSecret with
     | some s => s
     | none => ("undefined").data)

/-- Model of the cron `GET` handler
(src/app/api/cron/stock-analysis/route.ts:4-44): 401 unless the
authorization header (null when absent) equals the interpolated secret
exactly; otherwise run `analyzeStocks` on the default list — `runner`
stands for it — answering 200 on success and 500 on error. -/
def cronGet (cronSecret : Option Str) (authHeader : Option Str)
    (runner : List Str → Except Unit RunResult) : ApiResponse :=
  if authHeader ≠ some (cronExpectedHeader cronSecret) then { status := 401 }
  else
    match runner defaultStocks with
    | Except.ok _ => { status := 200 }
    | Except.error _ => { status := 500 }

/-- C10: when CRON_SECRET is unset the comparison string is the literal
"Bearer undefined", so a request carrying exactly that header is not
rejected with 401 and triggers the full analysis run on the default stocks
(200 or 500 according to the run), while every request whose header differs
from that string receives a 401. -/
theorem cronGet_undefined_secret (runner : List Str → Except Unit RunResult) :
    (cronGet none (some (("Bearer undefined").data)) runner ≠ { status := 401 } ∧
     cronGet none (some (("Bearer undefined").data)) runner =
       (match runner defaultStocks with
        | Except.ok _ => ({ status := 200 } : ApiResponse)
        | Except.error _ => { status := 500 })) ∧
    (∀ h : Option Str, h ≠ some (("Bearer undefined").data) →
      cronGet none h runner = { status := 401 }) := by
  have hexp : cronExpectedHeader none = ("Bearer undefined").data := rfl
  refine ⟨⟨?_, ?_⟩, ?_⟩
  · unfold cronGet
    rw [hexp, if_neg (by simp)]
    cases hr : runner defaultStocks <;> simp
  · unfold cronGet
    rw [hexp, if_neg (by simp)]
  · intro h hne
    unfold cronGet
    rw [hexp, if_pos hne]

/-- Witness for `cronGet_undefined_secret`: a request with no authorization
header is rejected with 401. -/
theorem cronGet_undefined_secret_witness :
    cronGet none none (fun _ => Except.error ()) = { status := 401 } :=
  (cronGet_undefined_secret (fun _ => Except.error ())).2 none (by simp)
